import Mathlib

/-!
Verification of the AirbnbFilter pipeline (filter / stats / rank / order)
against its specification.

The repository contains two handler implementations of the same pipeline:
* a mutating handler (`AirBnBDataHandler` in the module using
  `filteredListings` state; called "handler2" below), and
* a pure, chainable handler (`AirBnBDataHandler` built around
  `filterListings` / `calculateStats` / `rankHosts`; called "handler3" below).

JavaScript numbers are modelled as rationals (`ℚ`): every numeric literal in
the data and every arithmetic step the pipeline performs is exact on the
rationals involved, and NaN / Infinity — which JS produces only on division
by zero here — are modelled by `Option ℚ` (`none`) at the division sites.
JS field values are modelled by `Value`; records by association lists.
-/

/-- A CSV cell value as produced by d3's `autoType`: a number, a string,
a boolean, or `null` (empty cell).  An absent field is `Option.none` at the
lookup site. -/
inductive Value where
  | num (q : ℚ)
  | str (s : String)
  | bool (b : Bool)
  | null
deriving DecidableEq, Repr

/-- A listing record: ordered field list, as a JS object holds its own
enumerable properties.  Keys are unique in records built by the CSV decoder. -/
abbrev Listing := List (String × Value)

/-- `listing[prop]`: first field with the given name, if any. -/
def lookupField (it : Listing) (prop : String) : Option Value :=
  (it.find? (fun e => e.1 == prop)).map (fun e => e.2)

/-- JS property assignment `row[prop] = v`: update in place when the key
exists, otherwise append (a non-index string key goes last in property
order). -/
def setField (it : Listing) (prop : String) (v : Value) : Listing :=
  if it.any (fun e => e.1 == prop) then
    it.map (fun e => if e.1 == prop then (e.1, v) else e)
  else it ++ [(prop, v)]

/-- Value of a digit list read in base 10, most significant first. -/
def digitsToNat (l : List Char) : ℕ :=
  l.foldl (fun n c => 10 * n + (c.toNat - 48)) 0

/-- Value of a hex digit list, most significant first. -/
def hexDigitsToNat (l : List Char) : ℕ :=
  l.foldl (fun n c =>
    16 * n + (if c.isDigit then c.toNat - 48
              else if 'a' ≤ c ∧ c ≤ 'f' then c.toNat - 87
              else c.toNat - 55)) 0

def isHexDigitChar (c : Char) : Bool :=
  c.isDigit || ('a' ≤ c && c ≤ 'f') || ('A' ≤ c && c ≤ 'F')

/-- JS `parseFloat`: skip leading whitespace, then parse the longest prefix
of the form `[+-]? digits [. digits?]? ([eE][+-]?digits)?`; `none` models the
NaN result when no numeric prefix exists.  (JS additionally accepts an
`Infinity` literal; infinite values lie outside this rational embedding and
do not occur in currency/count/score data, so such strings are out of the
modelled domain.) -/
def jsParseFloat (s : String) : Option ℚ :=
  let l := s.data.dropWhile Char.isWhitespace
  let sgn : ℚ := match l with | '-' :: _ => -1 | _ => 1
  let l1 := match l with | '-' :: t => t | '+' :: t => t | _ => l
  let ip := l1.takeWhile Char.isDigit
  let l2 := l1.dropWhile Char.isDigit
  let fp := match l2 with
    | '.' :: t => t.takeWhile Char.isDigit
    | _ => []
  let l3 := match l2 with
    | '.' :: t => t.dropWhile Char.isDigit
    | _ => l2
  if ip = [] ∧ fp = [] then none
  else
    let mant : ℚ := (digitsToNat (ip ++ fp) : ℚ) / ((10 : ℚ) ^ fp.length)
    let exp : ℤ := match l3 with
      | c :: t =>
        if c = 'e' ∨ c = 'E' then
          let es : ℤ := match t with | '-' :: _ => -1 | _ => 1
          let t1 := match t with | '-' :: r => r | '+' :: r => r | _ => t
          let ed := t1.takeWhile Char.isDigit
          if ed = [] then 0 else es * (digitsToNat ed : ℤ)
        else 0
      | [] => 0
    some (sgn * mant * (if 0 ≤ exp then (10 : ℚ) ^ exp.toNat else 1 / (10 : ℚ) ^ (-exp).toNat))

/-- JS `parseInt` with unspecified radix: skip whitespace, optional sign,
an optional `0x`/`0X` prefix switching to hex, then the longest run of
digits; `none` models NaN (no digits). -/
def jsParseInt (s : String) : Option ℤ :=
  let l := s.data.dropWhile Char.isWhitespace
  let sgn : ℤ := match l with | '-' :: _ => -1 | _ => 1
  let l1 := match l with | '-' :: t => t | '+' :: t => t | _ => l
  match l1 with
  | '0' :: 'x' :: t | '0' :: 'X' :: t =>
    let ds := t.takeWhile isHexDigitChar
    if ds = [] then none else some (sgn * (hexDigitsToNat ds : ℤ))
  | _ =>
    let ds := l1.takeWhile Char.isDigit
    if ds = [] then none else some (sgn * (digitsToNat ds : ℤ))

/-- `value.toString().replace(/[$,]/g, '')`: drop every `$` and `,`. -/
def stripCurrency (s : String) : String :=
  ⟨s.data.filter (fun c => c ≠ '$' ∧ c ≠ ',')⟩

/-- Truncation toward zero, as `parseInt` applied to the decimal rendering
of a number (`parseInt(2.5)` is `2`, `parseInt(-2.5)` is `-2`).  JS renders
numbers of magnitude in `[1e-6, 1e21)` in plain decimal; exponent-notation
renderings outside that range are outside the modelled domain. -/
def ratTrunc (q : ℚ) : ℤ :=
  if 0 ≤ q then ⌊q⌋ else -⌊-q⌋

/-- `getNumber` (pure handler) / `getNumericValue` (mutating handler's
`order`): `parseFloat(item[prop]?.toString().replace(/[$,]/g, '') || '0') || 0`.
For a number-valued field, `String(n)` contains no `$`/`,` and
`parseFloat(String(n)) === n`, so the value itself is returned; `null` and
absent fields short-circuit the optional chain to the `'0'` fallback; a NaN
parse (including boolean renderings) falls back to `0` via `|| 0`. -/
def getNumber (it : Listing) (prop : String) : ℚ :=
  match lookupField it prop with
  | none => 0
  | some Value.null => 0
  | some (Value.num q) => q
  | some (Value.bool _) => 0
  | some (Value.str s) =>
    let s1 := stripCurrency s
    let s2 := if s1 = "" then "0" else s1
    (jsParseFloat s2).getD 0

/-- `parseFloat(listing[prop]) || 0` with no currency stripping, as the
mutating handler's filter uses for the review score (`parseFloat` stringifies
its argument; `undefined`, `null` and booleans parse to NaN, hence `0`). -/
def parseFloatField (it : Listing) (prop : String) : ℚ :=
  match lookupField it prop with
  | some (Value.num q) => q
  | some (Value.str s) => (jsParseFloat s).getD 0
  | _ => 0

/-- `parseInt(listing[prop]) || 0`, as the mutating handler's filter uses
for the bedroom count. -/
def parseIntField (it : Listing) (prop : String) : ℚ :=
  match lookupField it prop with
  | some (Value.num q) => ((ratTrunc q : ℤ) : ℚ)
  | some (Value.str s) => (((jsParseInt s).getD 0 : ℤ) : ℚ)
  | _ => 0

/-- `FilterParameters` / `Filters`: six numeric bounds; a zero max leaves
that dimension unconstrained. -/
structure Filters where
  price_min : ℚ
  price_max : ℚ
  room_min : ℚ
  room_max : ℚ
  score_min : ℚ
  score_max : ℚ
deriving DecidableEq, Repr

/-- The all-zero default criteria. -/
def Filters.zero : Filters := ⟨0, 0, 0, 0, 0, 0⟩

/-- The pure handler's per-listing predicate:
`(!filters.price_max || (price >= min && price <= max)) && …`, all three
values through `getNumber`.  A JS number is falsy exactly when it is zero
(NaN, the other falsy number, is not a rational and cannot reach this test
from the CLI layer, which replaces NaN bounds by `0`). -/
def passesPure (c : Filters) (it : Listing) : Bool :=
  let price := getNumber it "price"
  let bedrooms := getNumber it "bedrooms"
  let score := getNumber it "review_scores_rating"
  (decide (c.price_max = 0) || (decide (c.price_min ≤ price) && decide (price ≤ c.price_max))) &&
  (decide (c.room_max = 0) || (decide (c.room_min ≤ bedrooms) && decide (bedrooms ≤ c.room_max))) &&
  (decide (c.score_max = 0) || (decide (c.score_min ≤ score) && decide (score ≤ c.score_max)))

/-- `filterListings` (pure handler): `data.filter(listing => …)`. -/
def filterListings (data : List Listing) (c : Filters) : List Listing :=
  data.filter (passesPure c)

/-- The mutating handler's per-listing predicate: price through the same
strip-and-parse as `getNumber`, bedrooms through `parseInt(…) || 0`, score
through `parseFloat(…) || 0` (no currency strip), and each sentinel tested
with `=== 0`. -/
def passesMut (c : Filters) (it : Listing) : Bool :=
  let price := getNumber it "price"
  let bedrooms := parseIntField it "bedrooms"
  let score := parseFloatField it "review_scores_rating"
  (decide (c.price_max = 0) || (decide (c.price_min ≤ price) && decide (price ≤ c.price_max))) &&
  (decide (c.room_max = 0) || (decide (c.room_min ≤ bedrooms) && decide (bedrooms ≤ c.room_max))) &&
  (decide (c.score_max = 0) || (decide (c.score_min ≤ score) && decide (score ≤ c.score_max)))

/-- The subset the mutating handler's `filter` stores into
`filteredListings`: `data.filter(listing => …)`. -/
def filterMut (data : List Listing) (c : Filters) : List Listing :=
  data.filter (passesMut c)

/-- The mutating handler's whole state: the raw CSV `data` and the
`filteredListings` it maintains by side effect. -/
structure HandlerState where
  data : List Listing
  filteredListings : List Listing
deriving DecidableEq

/-- The mutating handler's `filter(filters)`: replace `filteredListings`
by the subset of `data` passing the criteria; `data` is read, not written. -/
def handlerFilterMut (s : HandlerState) (c : Filters) : HandlerState :=
  { s with filteredListings := filterMut s.data c }

/-- JS division, whose result is a real number unless the divisor is `0`
(`0/0` is NaN and `x/0` is ±Infinity, both modelled by `none`). -/
def jsDiv (a b : ℚ) : Option ℚ := if b = 0 then none else some (a / b)

/-- `typeof item.host_id === 'number' && item.host_id > 0`. -/
def isValidHost (it : Listing) : Bool :=
  match lookupField it "host_id" with
  | some (Value.num q) => decide (0 < q)
  | _ => false

/-- `ListingStats`, the record `calculateStats` returns. -/
structure ListingStats where
  count : ℕ
  averagePrice : Option ℚ
  avgPricePerRoom : Option ℚ
  validListings : ℕ
deriving DecidableEq, Repr

/-- `calculateStats` (pure handler): running sums of extracted price and
bedrooms via `reduce`, then the two quotients and the valid-host count. -/
def calculateStats (data : List Listing) : ListingStats :=
  let totalPrice := data.foldl (fun s it => s + getNumber it "price") 0
  let totalRooms := data.foldl (fun s it => s + getNumber it "bedrooms") 0
  { count := data.length
    averagePrice := jsDiv totalPrice (data.length : ℚ)
    avgPricePerRoom := jsDiv totalPrice totalRooms
    validListings := (data.filter isValidHost).length }

/-- `Number.prototype.toFixed(2)` on an exact rational: round the value at
the hundredths digit, half away from zero (the ECMA algorithm formats `-x`
with a minus sign and breaks ties on the magnitude upward). -/
def toFixed2 (q : ℚ) : ℚ :=
  if 0 ≤ q then (⌊q * 100 + 1 / 2⌋ : ℚ) / 100 else -((⌊-q * 100 + 1 / 2⌋ : ℚ) / 100)

/-- The annotation step of the mutating handler's `computeStats`:
`row.price_per_room = (price / (rooms || 1)).toFixed(2)` with
`price = parseFloat(strip(row.price)) || 0` and
`rooms = parseInt(row.bedrooms) || 0`.  `rooms || 1` replaces only a zero
room count by `1`.  `toFixed` returns the decimal string of this rational
(two fraction digits); the annotation is recorded here by its numeric
value, which is what every later numeric read of the field recovers. -/
def annotatePricePerRoom (it : Listing) : Listing :=
  let price := getNumber it "price"
  let rooms := parseIntField it "bedrooms"
  setField it "price_per_room" (Value.num (toFixed2 (price / (if rooms = 0 then 1 else rooms))))

/-- The dataset after the mutating handler's `computeStats` ran: every
row carries the derived `price_per_room` field. -/
def computeStatsAnnotate (data : List Listing) : List Listing :=
  data.map annotatePricePerRoom

/-- Model of `array.sort(comparator)` for a numeric comparator
`(a, b) => key(a) - key(b)`: `Array.prototype.sort` (ES2019 and later, as
required by the repository's Node engine) is a stable sort, so its output
is the unique list sorted by `key` in which elements with equal keys keep
their relative order; Mathlib's `insertionSort` with the total preorder
`key a ≤ key b` is exactly that list. -/
def sortByKey {α : Type} {β : Type} [LinearOrder β] (key : α → β) (l : List α) : List α :=
  List.insertionSort (fun a b => key a ≤ key b) l

/-- The pure handler's `order(property)`:
`[...data].sort(createComparator(item => getNumber(item, property)))`;
ascending, stable, leaving the handler it was called on untouched. -/
def handlerOrder (data : List Listing) (property : String) : List Listing :=
  sortByKey (fun it => getNumber it property) data

/-- The mutating handler's `order(property)`.  Before sorting it logs
`filteredListings[0][property]` and `filteredListings[lastIndex][property]`;
on an empty array `filteredListings[0]` is `undefined` and the member access
on it throws a `TypeError`, modelled by `Except.error`.  Otherwise it sorts
`filteredListings` in place with the same comparator as the pure handler
(`getNumericValue` is the strip-and-parse extractor `getNumber`). -/
def handlerOrderMut (listings : List Listing) (property : String) :
    Except String (List Listing) :=
  match listings with
  | [] => Except.error "TypeError: cannot read properties of undefined"
  | _ => Except.ok (sortByKey (fun it => getNumber it property) listings)

/-- Decimal rendering of a number used as a JS object property key
(`String(n)`).  Integers render with no fractional part; non-integers whose
denominator divides a power of ten (every number the CSV decoder produces)
render with their terminating decimal expansion.  Other rationals have no
JS-number counterpart rendering and get an inert fallback spelling. -/
def ratToKeyString (q : ℚ) : String :=
  let sign := if q.num < 0 then "-" else ""
  if q.den = 1 then sign ++ q.num.natAbs.repr
  else
    match (List.range 31).find? (fun k => 10 ^ k % q.den = 0) with
    | some k =>
      let n := q.num.natAbs * (10 ^ k / q.den)
      let frac := (n % 10 ^ k).repr
      let pad := String.mk (List.replicate (k - frac.length) '0')
      sign ++ (n / 10 ^ k).repr ++ "." ++ pad ++ frac
    | none => sign ++ q.num.natAbs.repr ++ "/" ++ q.den.repr

/-- `String(value)` for a property-key position (no optional chaining). -/
def jsKey (v : Option Value) : String :=
  match v with
  | none => "undefined"
  | some Value.null => "null"
  | some (Value.bool b) => cond b "true" "false"
  | some (Value.str s) => s
  | some (Value.num q) => ratToKeyString q

/-- An ECMAScript array-index property key: the canonical decimal string of
an integer below `2^32 - 1`.  Such keys enumerate before all other own
string keys, in ascending numeric order. -/
def isArrayIndexKey (s : String) : Option ℕ :=
  if s.data ≠ [] ∧ s.data.all Char.isDigit ∧ (s.data = ['0'] ∨ s.data.head? ≠ some '0')
      ∧ digitsToNat s.data < 2 ^ 32 - 1
  then some (digitsToNat s.data) else none

/-- Host accumulator entry: `{ name, count }`. -/
structure HostAcc where
  name : Option Value
  count : ℕ
deriving DecidableEq, Repr

/-- A JS object from host-id key to accumulator, in property order. -/
abbrev HostObj := List (String × HostAcc)

/-- Re-assignment to an existing key: position in property order is kept. -/
def objUpdate : HostObj → String → HostAcc → HostObj
  | [], _, _ => []
  | e :: es, k, v => if e.1 = k then (e.1, v) :: es else e :: objUpdate es k v

/-- Placing a fresh array-index key `n`: it enumerates among the index keys
in ascending numeric order, before every non-index key. -/
def insertIdxEntry (n : ℕ) (e : String × HostAcc) : HostObj → HostObj
  | [] => [e]
  | f :: fs =>
    match isArrayIndexKey f.1 with
    | some m => if m < n then f :: insertIdxEntry n e fs else e :: f :: fs
    | none => e :: f :: fs

/-- Property write `obj[k] = u(obj[k])` with ECMAScript own-key ordering
(also the ordering behaviour of `{ ...obj, [k]: v }`). -/
def objInsert (obj : HostObj) (k : String) (u : Option HostAcc → HostAcc) : HostObj :=
  match obj.find? (fun e => e.1 == k) with
  | some e => objUpdate obj k (u (some e.2))
  | none =>
    match isArrayIndexKey k with
    | some n => insertIdxEntry n (k, u none) obj
    | none => obj ++ [(k, u none)]

/-- The property key a listing's `host_id` becomes. -/
def hostKey (it : Listing) : String := jsKey (lookupField it "host_id")

/-- One `reduce` step of the pure handler's `rankHosts`:
`{ ...acc, [id]: { name: listing.host_name, count: (acc[id]?.count || 0) + 1 } }`
— the name is overwritten by the current listing on every step. -/
def hostStep (obj : HostObj) (it : Listing) : HostObj :=
  objInsert obj (hostKey it)
    (fun old => ⟨lookupField it "host_name",
                 (match old with | none => 0 | some a => a.count) + 1⟩)

/-- The grouping object built by `reduce`, then read off by
`Object.entries` in property order. -/
def hostGroups (data : List Listing) : HostObj :=
  data.foldl hostStep []

/-- `Object.entries(…).sort((a, b) => b[1].count - a[1].count)`: stable
sort by descending count (ascending in the negated count). -/
def rankAllHosts (data : List Listing) : HostObj :=
  sortByKey (fun e => -((e.2.count : ℤ))) (hostGroups data)

/-- The pure handler's `rankHosts(limit = 10)`: `.slice(0, limit)`. -/
def handlerRankHosts (data : List Listing) (limit : ℕ) : HostObj :=
  (rankAllHosts data).take limit

/-- Number of distinct host-id keys in a dataset. -/
def distinctHostCount (data : List Listing) : ℕ :=
  ((data.map hostKey).toFinset).card

/-- Total listing count covered by a run of ranking entries. -/
def sumCounts (l : HostObj) : ℕ :=
  (l.map (fun e => e.2.count)).sum

/-- `obj[k]`: property read. -/
def objLookup (obj : HostObj) (k : String) : Option HostAcc :=
  (obj.find? (fun e => e.1 == k)).map (fun e => e.2)

/-- The accumulator value the grouping fold associates to a key whose
matching listings are `ls`: count them all, name from the most recent. -/
def hostAccFor (ls : List Listing) : Option HostAcc :=
  ls.getLast?.map (fun l => ⟨lookupField l "host_name", ls.length⟩)

/-- Numeric value of an array-index key (`0` as a dummy for non-index keys,
never consulted there). -/
def keyIdxVal (k : String) : ℕ := (isArrayIndexKey k).getD 0

/-- ECMAScript own-key enumeration invariant: a block of array-index keys
in ascending numeric order, followed by non-index string keys. -/
def KeysOrdered (ks : List String) : Prop :=
  ∃ ik sk, ks = ik ++ sk
    ∧ (∀ k ∈ ik, (isArrayIndexKey k).isSome)
    ∧ (∀ k ∈ sk, isArrayIndexKey k = none)
    ∧ ik.Pairwise (fun a b => keyIdxVal a < keyIdxVal b)

/-- Key-list shadow of `insertIdxEntry`. -/
def insertIdxKey (n : ℕ) (k : String) : List String → List String
  | [] => [k]
  | f :: fs =>
    match isArrayIndexKey f with
    | some m => if m < n then f :: insertIdxKey n k fs else k :: f :: fs
    | none => k :: f :: fs

/-- The three-listing scenario dataset of the specification. -/
def exL1 : Listing :=
  [("price", Value.str "$200"), ("bedrooms", Value.num 2),
   ("review_scores_rating", Value.num (9 / 2)), ("host_id", Value.num 1),
   ("host_name", Value.str "A")]

def exL2 : Listing :=
  [("price", Value.str "$100"), ("bedrooms", Value.num 1),
   ("review_scores_rating", Value.num 3), ("host_id", Value.num 1),
   ("host_name", Value.str "A")]

def exL3 : Listing :=
  [("price", Value.str "$50"), ("bedrooms", Value.num 1),
   ("review_scores_rating", Value.num 5), ("host_id", Value.num 2),
   ("host_name", Value.str "B")]

def exData : List Listing := [exL1, exL2, exL3]

-- Sanity checks for the parser model (claim C2's concrete examples appear
-- as theorems below).
example : jsParseFloat "1234.50" = some (2469 / 2) := by
  simp +decide [jsParseFloat, List.dropWhile, List.takeWhile, digitsToNat]
  norm_num

example : jsParseFloat "" = none := by
  simp +decide [jsParseFloat, List.dropWhile, List.takeWhile]

example : jsParseInt "2" = some 2 := by
  simp +decide [jsParseInt, List.dropWhile, List.takeWhile, digitsToNat]

example : jsParseFloat "2.5e1" = some 25 := by
  simp +decide [jsParseFloat, List.dropWhile, List.takeWhile, digitsToNat]

theorem sortByKey_perm {α β : Type} [LinearOrder β] (key : α → β) (l : List α) :
    List.Perm (sortByKey key l) l :=
  List.perm_insertionSort _ l

theorem sortByKey_sorted {α β : Type} [LinearOrder β] (key : α → β) (l : List α) :
    List.Pairwise (fun a b => key a ≤ key b) (sortByKey key l) := by
  have h1 : IsTotal α (fun a b => key a ≤ key b) := ⟨fun a b => le_total _ _⟩
  have h2 : IsTrans α (fun a b => key a ≤ key b) := ⟨fun _ _ _ hab hbc => le_trans hab hbc⟩
  exact List.sorted_insertionSort _ l

theorem sortByKey_of_sorted {α β : Type} [LinearOrder β] (key : α → β) {l : List α}
    (h : List.Pairwise (fun a b => key a ≤ key b) l) : sortByKey key l = l :=
  List.Sorted.insertionSort_eq h

/-- One `orderedInsert` step seen through a key-value filter: the inserted
element lands before every element of equal key (and after none), so the
filtered view gains it at the front when its key matches and is unchanged
otherwise. -/
theorem orderedInsert_filter_beq {α β : Type} [LinearOrder β] (key : α → β) (c : β)
    (x : α) (l : List α) :
    (List.orderedInsert (fun a b => key a ≤ key b) x l).filter (fun e => key e == c)
      = if key x = c then x :: l.filter (fun e => key e == c)
        else l.filter (fun e => key e == c) := by
  induction l with
  | nil =>
    by_cases hxc : key x = c <;> simp [List.orderedInsert, List.filter_cons, hxc]
  | cons b bs ih =>
    by_cases hxb : key x ≤ key b
    · rw [List.orderedInsert, if_pos hxb]
      by_cases hxc : key x = c <;> simp [List.filter_cons, hxc]
    · rw [List.orderedInsert, if_neg hxb]
      have hblt : key b < key x := lt_of_not_le hxb
      by_cases hxc : key x = c
      · have hbc : key b ≠ c := fun hc => absurd (hxc ▸ hc ▸ hblt) (lt_irrefl _)
        simp [List.filter_cons, ih, hxc, hbc]
      · simp [List.filter_cons, ih, hxc]

/-- Stability of the sort model, as a filter characterization: the
elements carrying any fixed key value appear in the output exactly as they
appeared in the input. -/
theorem sortByKey_filter_eq {α β : Type} [LinearOrder β] (key : α → β) (l : List α) (c : β) :
    (sortByKey key l).filter (fun e => key e == c) = l.filter (fun e => key e == c) := by
  induction l with
  | nil => rfl
  | cons x xs ih =>
    show (List.orderedInsert _ x (sortByKey key xs)).filter _ = _
    rw [orderedInsert_filter_beq, List.filter_cons]
    by_cases hxc : key x = c
    · rw [if_pos hxc, ih]
      have hxt : (key x == c) = true := by simpa using hxc
      rw [hxt]
      simp
    · rw [if_neg hxc, ih]
      have hxf : (key x == c) = false := by simpa using hxc
      rw [hxf]
      simp

theorem objUpdate_keys (obj : HostObj) (k : String) (v : HostAcc) :
    (objUpdate obj k v).map (fun e => e.1) = obj.map (fun e => e.1) := by
  induction obj with
  | nil => rfl
  | cons e es ih =>
    by_cases h : e.1 = k
    · simp [objUpdate, h]
    · simp [objUpdate, h, ih]

theorem insertIdxEntry_perm (n : ℕ) (e : String × HostAcc) (obj : HostObj) :
    List.Perm (insertIdxEntry n e obj) (e :: obj) := by
  induction obj with
  | nil => exact List.Perm.refl _
  | cons f fs ih =>
    simp only [insertIdxEntry]
    cases hf : isArrayIndexKey f.1 with
    | none => exact List.Perm.refl _
    | some m =>
      by_cases hm : m < n
      · simp only [if_pos hm]
        exact (ih.cons f).trans (List.Perm.swap e f fs)
      · simp only [if_neg hm]
        exact List.Perm.refl _

theorem objUpdate_of_not_mem {obj : HostObj} {k : String} (v : HostAcc)
    (h : k ∉ obj.map (fun e => e.1)) : objUpdate obj k v = obj := by
  induction obj with
  | nil => rfl
  | cons e es ih =>
    simp only [List.map_cons, List.mem_cons] at h
    push_neg at h
    rw [objUpdate, if_neg (fun he : e.1 = k => h.1 he.symm), ih h.2]

theorem find?_eq_none_iff_keys {obj : HostObj} {k : String} :
    obj.find? (fun e => e.1 == k) = none ↔ k ∉ obj.map (fun e => e.1) := by
  rw [List.find?_eq_none]
  constructor
  · intro h hk
    rcases List.mem_map.mp hk with ⟨e, he, hek⟩
    have he2 : e.1 ≠ k := by simpa using h e he
    exact he2 hek
  · intro h e he
    have he2 : e.1 ≠ k := fun hek => h (List.mem_map.mpr ⟨e, he, hek⟩)
    simpa using he2

theorem objInsert_perm_new {obj : HostObj} {k : String} (u : Option HostAcc → HostAcc)
    (h : k ∉ obj.map (fun e => e.1)) :
    List.Perm (objInsert obj k u) ((k, u none) :: obj) := by
  rw [objInsert, find?_eq_none_iff_keys.mpr h]
  cases hidx : isArrayIndexKey k with
  | some n => exact insertIdxEntry_perm n (k, u none) obj
  | none => exact List.perm_append_singleton _ _

theorem objInsert_keys_perm (obj : HostObj) (k : String) (u : Option HostAcc → HostAcc) :
    List.Perm ((objInsert obj k u).map (fun e => e.1))
      (if k ∈ obj.map (fun e => e.1) then obj.map (fun e => e.1)
       else k :: obj.map (fun e => e.1)) := by
  by_cases hk : k ∈ obj.map (fun e => e.1)
  · rw [if_pos hk]
    cases hf : obj.find? (fun e => e.1 == k) with
    | none => exact absurd (find?_eq_none_iff_keys.mp hf) (fun h => h hk)
    | some e =>
      rw [objInsert, hf, objUpdate_keys]
  · rw [if_neg hk]
    exact (objInsert_perm_new u hk).map (fun e => e.1)

theorem objInsert_keys_nodup {obj : HostObj} {k : String} (u : Option HostAcc → HostAcc)
    (h : (obj.map (fun e => e.1)).Nodup) :
    ((objInsert obj k u).map (fun e => e.1)).Nodup := by
  have hp := objInsert_keys_perm obj k u
  by_cases hk : k ∈ obj.map (fun e => e.1)
  · rw [if_pos hk] at hp
    exact hp.nodup_iff.mpr h
  · rw [if_neg hk] at hp
    exact hp.nodup_iff.mpr (List.nodup_cons.mpr ⟨hk, h⟩)

theorem objInsert_keys_toFinset (obj : HostObj) (k : String) (u : Option HostAcc → HostAcc) :
    ((objInsert obj k u).map (fun e => e.1)).toFinset
      = insert k ((obj.map (fun e => e.1)).toFinset) := by
  have hp := objInsert_keys_perm obj k u
  apply Finset.ext
  intro x
  simp only [List.mem_toFinset, Finset.mem_insert]
  by_cases hk : k ∈ obj.map (fun e => e.1)
  · rw [if_pos hk] at hp
    rw [hp.mem_iff]
    constructor
    · exact fun h => Or.inr h
    · rintro (rfl | h)
      · exact hk
      · exact h
  · rw [if_neg hk] at hp
    rw [hp.mem_iff, List.mem_cons]

theorem sumCounts_objUpdate {obj : HostObj} {k : String} {e : String × HostAcc}
    (v : HostAcc) (hf : obj.find? (fun f => f.1 == k) = some e) :
    sumCounts (objUpdate obj k v) + e.2.count = sumCounts obj + v.count := by
  induction obj with
  | nil => exact absurd hf (by simp)
  | cons f fs ih =>
    by_cases hfk : f.1 = k
    · rw [List.find?_cons_of_pos _ (by simpa using hfk)] at hf
      cases hf
      rw [objUpdate, if_pos hfk]
      simp only [sumCounts, List.map_cons, List.sum_cons]
      omega
    · rw [List.find?_cons_of_neg _ (by simpa using hfk)] at hf
      rw [objUpdate, if_neg hfk]
      simp only [sumCounts, List.map_cons, List.sum_cons] at ih ⊢
      have := ih hf
      omega

theorem sumCounts_perm {l1 l2 : HostObj} (h : List.Perm l1 l2) :
    sumCounts l1 = sumCounts l2 := by
  unfold sumCounts
  exact (h.map (fun e => e.2.count)).sum_eq

theorem sumCounts_objInsert (obj : HostObj) (k : String) (u : Option HostAcc → HostAcc)
    (hu0 : (u none).count = 1) (hu1 : ∀ a, (u (some a)).count = a.count + 1) :
    sumCounts (objInsert obj k u) = sumCounts obj + 1 := by
  cases hf : obj.find? (fun e => e.1 == k) with
  | none =>
    have hk := find?_eq_none_iff_keys.mp hf
    rw [sumCounts_perm (objInsert_perm_new u hk)]
    simp only [sumCounts, List.map_cons, List.sum_cons, hu0]
    omega
  | some e =>
    rw [objInsert, hf]
    show sumCounts (objUpdate obj k (u (some e.2))) = sumCounts obj + 1
    have h1 := sumCounts_objUpdate (u (some e.2)) hf
    have h2 := hu1 e.2
    omega

theorem find?_insertIdxEntry_self {obj : HostObj} {k : String} (n : ℕ) (v : HostAcc)
    (h : obj.find? (fun e => e.1 == k) = none) :
    (insertIdxEntry n (k, v) obj).find? (fun e => e.1 == k) = some (k, v) := by
  induction obj with
  | nil => simp [insertIdxEntry]
  | cons f fs ih =>
    rw [List.find?_cons] at h
    cases hfa : f.1 == k with
    | true => simp [hfa] at h
    | false =>
      rw [hfa] at h
      have h2 : List.find? (fun e => e.1 == k) fs = none := h
      cases hidx : isArrayIndexKey f.1 with
      | some m =>
        by_cases hm : m < n
        · simp only [insertIdxEntry, hidx, if_pos hm]
          simp [List.find?_cons, hfa, ih h2]
        · simp only [insertIdxEntry, hidx, if_neg hm]
          simp [List.find?_cons]
      | none =>
        simp only [insertIdxEntry, hidx]
        simp [List.find?_cons]

theorem find?_insertIdxEntry_other {obj : HostObj} {k k2 : String} (n : ℕ) (v : HostAcc)
    (hne : k2 ≠ k) :
    (insertIdxEntry n (k, v) obj).find? (fun e => e.1 == k2)
      = obj.find? (fun e => e.1 == k2) := by
  induction obj with
  | nil => simp [insertIdxEntry, List.find?_cons, Ne.symm hne]
  | cons f fs ih =>
    cases hidx : isArrayIndexKey f.1 with
    | some m =>
      by_cases hm : m < n
      · simp only [insertIdxEntry, hidx, if_pos hm]
        cases hfa : f.1 == k2 with
        | true => simp [List.find?_cons, hfa]
        | false => simp [List.find?_cons, hfa, ih]
      · simp only [insertIdxEntry, hidx, if_neg hm]
        simp [List.find?_cons, Ne.symm hne]
    | none =>
      simp only [insertIdxEntry, hidx]
      simp [List.find?_cons, Ne.symm hne]

theorem objLookup_objUpdate_self {obj : HostObj} {k : String} {e : String × HostAcc}
    (v : HostAcc) (hf : obj.find? (fun f => f.1 == k) = some e) :
    objLookup (objUpdate obj k v) k = some v := by
  induction obj with
  | nil => exact absurd hf (by simp)
  | cons f fs ih =>
    by_cases hfk : f.1 = k
    · rw [objUpdate, if_pos hfk]
      simp [objLookup, List.find?_cons, hfk]
    · have hfs : fs.find? (fun f => f.1 == k) = some e := by
        rw [List.find?_cons] at hf
        simpa [show (f.1 == k) = false by simpa using hfk] using hf
      rw [objUpdate, if_neg hfk]
      simp only [objLookup, List.find?_cons,
        show (f.1 == k) = false by simpa using hfk]
      exact ih hfs

theorem objLookup_objUpdate_other {obj : HostObj} {k k2 : String}
    (v : HostAcc) (hne : k2 ≠ k) :
    objLookup (objUpdate obj k v) k2 = objLookup obj k2 := by
  induction obj with
  | nil => rfl
  | cons f fs ih =>
    by_cases hfk : f.1 = k
    · have h2 : (f.1 == k2) = false := by
        simp only [beq_eq_false_iff_ne, ne_eq]
        exact fun h => hne (h.symm.trans hfk)
      rw [objUpdate, if_pos hfk]
      simp [objLookup, List.find?_cons, h2]
    · rw [objUpdate, if_neg hfk]
      cases hfa : f.1 == k2 with
      | true => simp [objLookup, List.find?_cons, hfa]
      | false => simpa [objLookup, List.find?_cons, hfa] using ih

theorem objLookup_objInsert_self (obj : HostObj) (k : String) (u : Option HostAcc → HostAcc) :
    objLookup (objInsert obj k u) k = some (u (objLookup obj k)) := by
  cases hf : obj.find? (fun e => e.1 == k) with
  | none =>
    have hlook : objLookup obj k = none := by rw [objLookup, hf]; rfl
    rw [objInsert, hf, hlook]
    cases hidx : isArrayIndexKey k with
    | some n =>
      show objLookup (insertIdxEntry n (k, u none) obj) k = some (u none)
      rw [objLookup, find?_insertIdxEntry_self n (u none) hf]
      rfl
    | none =>
      show objLookup (obj ++ [(k, u none)]) k = some (u none)
      rw [objLookup, List.find?_append, hf]
      simp [List.find?_cons]
  | some e =>
    have hlook : objLookup obj k = some e.2 := by rw [objLookup, hf]; rfl
    rw [objInsert, hf, hlook]
    show objLookup (objUpdate obj k (u (some e.2))) k = some (u (some e.2))
    exact objLookup_objUpdate_self _ hf

theorem objLookup_objInsert_other {k k2 : String} (obj : HostObj)
    (u : Option HostAcc → HostAcc) (hne : k2 ≠ k) :
    objLookup (objInsert obj k u) k2 = objLookup obj k2 := by
  cases hf : obj.find? (fun e => e.1 == k) with
  | none =>
    rw [objInsert, hf]
    cases hidx : isArrayIndexKey k with
    | some n =>
      show objLookup (insertIdxEntry n (k, u none) obj) k2 = _
      rw [objLookup, find?_insertIdxEntry_other n (u none) hne, objLookup]
    | none =>
      show objLookup (obj ++ [(k, u none)]) k2 = _
      rw [objLookup, List.find?_append, objLookup]
      cases hk2 : obj.find? (fun e => e.1 == k2) with
      | some e => rfl
      | none => simp [List.find?_cons, Ne.symm hne]
  | some e =>
    rw [objInsert, hf]
    show objLookup (objUpdate obj k (u (some e.2))) k2 = _
    exact objLookup_objUpdate_other _ hne

theorem mem_iff_objLookup {obj : HostObj} {k : String} {a : HostAcc}
    (h : (obj.map (fun e => e.1)).Nodup) :
    (k, a) ∈ obj ↔ objLookup obj k = some a := by
  induction obj with
  | nil => simp [objLookup]
  | cons f fs ih =>
    rw [List.map_cons, List.nodup_cons] at h
    by_cases hfk : f.1 = k
    · simp only [objLookup, List.find?_cons, show (f.1 == k) = true by simpa using hfk,
        List.mem_cons, Option.map_some]
      constructor
      · rintro (rfl | hm)
        · rfl
        · exact absurd (hfk ▸ List.mem_map.mpr ⟨(k, a), hm, rfl⟩) h.1
      · intro he
        left
        have h1 : f.2 = a := by simpa using he
        obtain ⟨f1, f2⟩ := f
        simp only at hfk h1
        rw [hfk, h1]
    · simp only [objLookup, List.find?_cons, show (f.1 == k) = false by simpa using hfk,
        List.mem_cons]
      constructor
      · rintro (rfl | hm)
        · exact absurd rfl hfk
        · exact (ih h.2).mp hm
      · intro hl
        exact Or.inr ((ih h.2).mpr hl)

theorem hostGroups_snoc (data : List Listing) (l : Listing) :
    hostGroups (data ++ [l]) = hostStep (hostGroups data) l := by
  simp [hostGroups, List.foldl_append]

theorem hostGroups_keys_nodup (data : List Listing) :
    ((hostGroups data).map (fun e => e.1)).Nodup := by
  induction data using List.reverseRecOn with
  | nil => simp [hostGroups]
  | append_singleton data l ih =>
    rw [hostGroups_snoc]
    exact objInsert_keys_nodup _ ih

theorem hostGroups_keys_toFinset (data : List Listing) :
    ((hostGroups data).map (fun e => e.1)).toFinset = (data.map hostKey).toFinset := by
  induction data using List.reverseRecOn with
  | nil => rfl
  | append_singleton data l ih =>
    rw [hostGroups_snoc]
    show ((objInsert (hostGroups data) (hostKey l) _).map (fun e => e.1)).toFinset = _
    rw [objInsert_keys_toFinset, ih, List.map_append, List.toFinset_append]
    simp [Finset.insert_eq, Finset.union_comm]

theorem hostGroups_length (data : List Listing) :
    (hostGroups data).length = distinctHostCount data := by
  have h1 : (hostGroups data).length = ((hostGroups data).map (fun e => e.1)).length :=
    (List.length_map _ _).symm
  rw [h1, ← List.toFinset_card_of_nodup (hostGroups_keys_nodup data),
    hostGroups_keys_toFinset]
  rfl

theorem sumCounts_hostGroups (data : List Listing) :
    sumCounts (hostGroups data) = data.length := by
  induction data using List.reverseRecOn with
  | nil => rfl
  | append_singleton data l ih =>
    rw [hostGroups_snoc]
    show sumCounts (objInsert (hostGroups data) (hostKey l) _) = _
    rw [sumCounts_objInsert _ _ _ rfl (fun a => rfl), ih]
    simp

theorem hostAccFor_count (ls : List Listing) :
    (match hostAccFor ls with | none => 0 | some a => a.count) = ls.length := by
  cases hl : ls.getLast? with
  | none =>
    have : ls = [] := by
      cases ls with
      | nil => rfl
      | cons x xs => simp [List.getLast?_concat] at hl
    subst this
    rfl
  | some l => simp [hostAccFor, hl]

theorem objLookup_hostGroups (data : List Listing) (k : String) :
    objLookup (hostGroups data) k
      = hostAccFor (data.filter (fun it => hostKey it == k)) := by
  induction data using List.reverseRecOn with
  | nil => rfl
  | append_singleton data l ih =>
    rw [hostGroups_snoc, List.filter_append]
    by_cases hk : hostKey l = k
    · have hstep : hostStep (hostGroups data) l = objInsert (hostGroups data) k
          (fun old => ⟨lookupField l "host_name",
            (match old with | none => 0 | some a => a.count) + 1⟩) := by
        rw [hostStep, hk]
      rw [hstep, objLookup_objInsert_self, ih]
      have hfl : List.filter (fun it => hostKey it == k) [l] = [l] := by
        simp [List.filter_cons, hk]
      rw [hfl]
      have hr : hostAccFor (List.filter (fun it => hostKey it == k) data ++ [l])
          = some ⟨lookupField l "host_name",
              (List.filter (fun it => hostKey it == k) data).length + 1⟩ := by
        rw [hostAccFor, List.getLast?_concat, List.length_append]
        rfl
      rw [hr, hostAccFor_count]
    · have hne : k ≠ hostKey l := fun h => hk h.symm
      rw [show hostStep (hostGroups data) l = objInsert (hostGroups data) (hostKey l) _
          from rfl]
      rw [objLookup_objInsert_other _ _ hne, ih]
      have hfl : List.filter (fun it => hostKey it == k) [l] = [] := by
        simp [List.filter_cons, hk]
      rw [hfl, List.append_nil]

theorem hostGroups_entry_spec {data : List Listing} {k : String} {a : HostAcc}
    (h : (k, a) ∈ hostGroups data) :
    a.count = (data.filter (fun it => hostKey it == k)).length
    ∧ ∃ l, (data.filter (fun it => hostKey it == k)).getLast? = some l
        ∧ a.name = lookupField l "host_name" := by
  have hl := (mem_iff_objLookup (hostGroups_keys_nodup data)).mp h
  rw [objLookup_hostGroups] at hl
  cases hg : (data.filter (fun it => hostKey it == k)).getLast? with
  | none => simp [hostAccFor, hg] at hl
  | some l =>
    have hl2 : a = ⟨lookupField l "host_name",
        (data.filter (fun it => hostKey it == k)).length⟩ := by
      simpa [hostAccFor, hg] using hl.symm
    constructor
    · rw [hl2]
    · exact ⟨l, rfl, by rw [hl2]⟩

theorem isDigit_toNat_bounds {c : Char} (h : c.isDigit = true) :
    48 ≤ c.toNat ∧ c.toNat ≤ 57 := by
  simp only [Char.isDigit, Bool.and_eq_true, decide_eq_true_eq, ge_iff_le] at h
  exact h

theorem char_toNat_inj {c1 c2 : Char} (h : c1.toNat = c2.toNat) : c1 = c2 := by
  apply Char.ext
  exact UInt32.toNat.inj h

theorem digitsToNat_aux (l : List Char) (a : ℕ) :
    l.foldl (fun n c => 10 * n + (c.toNat - 48)) a = a * 10 ^ l.length + digitsToNat l := by
  induction l generalizing a with
  | nil => simp [digitsToNat]
  | cons c cs ih =>
    show List.foldl _ (10 * a + (c.toNat - 48)) cs = _
    rw [ih]
    have h2 : digitsToNat (c :: cs) = (c.toNat - 48) * 10 ^ cs.length + digitsToNat cs := by
      show List.foldl _ (10 * 0 + (c.toNat - 48)) cs = _
      rw [ih]
      ring_nf
    rw [h2, List.length_cons]
    ring

theorem digitsToNat_cons (c : Char) (cs : List Char) :
    digitsToNat (c :: cs) = (c.toNat - 48) * 10 ^ cs.length + digitsToNat cs := by
  show List.foldl _ (10 * 0 + (c.toNat - 48)) cs = _
  rw [digitsToNat_aux]
  ring_nf

theorem digitsToNat_lt (l : List Char) (h : ∀ c ∈ l, c.isDigit = true) :
    digitsToNat l < 10 ^ l.length := by
  induction l with
  | nil => simp [digitsToNat]
  | cons c cs ih =>
    rw [digitsToNat_cons, List.length_cons]
    have hd := isDigit_toNat_bounds (h c (List.mem_cons_self c cs))
    have hcs := ih (fun x hx => h x (List.mem_cons_of_mem c hx))
    have h9 : c.toNat - 48 ≤ 9 := by omega
    calc (c.toNat - 48) * 10 ^ cs.length + digitsToNat cs
        ≤ 9 * 10 ^ cs.length + digitsToNat cs := by
          exact Nat.add_le_add_right (Nat.mul_le_mul_right _ h9) _
      _ < 9 * 10 ^ cs.length + 10 ^ cs.length := by omega
      _ = 10 ^ (cs.length + 1) := by ring

theorem digitsToNat_inj_of_length {l1 l2 : List Char} (hlen : l1.length = l2.length)
    (h1 : ∀ c ∈ l1, c.isDigit = true) (h2 : ∀ c ∈ l2, c.isDigit = true)
    (hv : digitsToNat l1 = digitsToNat l2) : l1 = l2 := by
  induction l1 generalizing l2 with
  | nil =>
    cases l2 with
    | nil => rfl
    | cons b bs => exact absurd hlen (by simp)
  | cons a as ih =>
    cases l2 with
    | nil => exact absurd hlen (by simp)
    | cons b bs =>
      have hlen2 : as.length = bs.length := by simpa using hlen
      rw [digitsToNat_cons, digitsToNat_cons, hlen2] at hv
      have hra := digitsToNat_lt as (fun c hc => h1 c (List.mem_cons_of_mem a hc))
      have hrb := digitsToNat_lt bs (fun c hc => h2 c (List.mem_cons_of_mem b hc))
      rw [hlen2] at hra
      have hda := isDigit_toNat_bounds (h1 a (List.mem_cons_self a as))
      have hdb := isDigit_toNat_bounds (h2 b (List.mem_cons_self b bs))
      have heq : a.toNat - 48 = b.toNat - 48 := by
        by_contra hne
        rcases Nat.lt_or_ge (a.toNat - 48) (b.toNat - 48) with hlt | hge
        · have hstep : (a.toNat - 48 + 1) * 10 ^ bs.length ≤ (b.toNat - 48) * 10 ^ bs.length :=
            Nat.mul_le_mul_right _ (Nat.succ_le_of_lt hlt)
          rw [Nat.add_mul, Nat.one_mul] at hstep
          omega
        · have hgt : b.toNat - 48 < a.toNat - 48 := by omega
          have hstep : (b.toNat - 48 + 1) * 10 ^ bs.length ≤ (a.toNat - 48) * 10 ^ bs.length :=
            Nat.mul_le_mul_right _ (Nat.succ_le_of_lt hgt)
          rw [Nat.add_mul, Nat.one_mul] at hstep
          omega
      rw [heq] at hv
      have hveq : digitsToNat as = digitsToNat bs := by omega
      have hab : a = b := char_toNat_inj (by omega)
      rw [hab, ih hlen2 (fun c hc => h1 c (List.mem_cons_of_mem a hc))
        (fun c hc => h2 c (List.mem_cons_of_mem b hc)) hveq]

theorem isArrayIndexKey_spec {s : String} {n : ℕ} (h : isArrayIndexKey s = some n) :
    s.data ≠ [] ∧ (∀ c ∈ s.data, c.isDigit = true)
    ∧ (s.data = ['0'] ∨ s.data.head? ≠ some '0') ∧ digitsToNat s.data = n := by
  by_cases hc : s.data ≠ [] ∧ s.data.all Char.isDigit
      ∧ (s.data = ['0'] ∨ s.data.head? ≠ some '0') ∧ digitsToNat s.data < 2 ^ 32 - 1
  · rw [isArrayIndexKey, if_pos hc] at h
    obtain ⟨h1, h2, h3, h4⟩ := hc
    exact ⟨h1, fun c hcm => List.all_eq_true.mp h2 c hcm, h3, by injection h⟩
  · rw [isArrayIndexKey, if_neg hc] at h
    exact absurd h (by simp)

theorem digitsToNat_lower {c : Char} (cs : List Char) (hc : c.isDigit = true)
    (hne : c ≠ '0') : 10 ^ cs.length ≤ digitsToNat (c :: cs) := by
  rw [digitsToNat_cons]
  have hb := isDigit_toNat_bounds hc
  have h1 : 1 ≤ c.toNat - 48 := by
    rcases Nat.eq_or_lt_of_le hb.1 with he | hl
    · have h0 : ('0' : Char).toNat = 48 := rfl
      exact absurd (char_toNat_inj (he.symm.trans h0.symm)) hne
    · omega
  calc 10 ^ cs.length = 1 * 10 ^ cs.length := by ring
    _ ≤ (c.toNat - 48) * 10 ^ cs.length := Nat.mul_le_mul_right _ h1
    _ ≤ (c.toNat - 48) * 10 ^ cs.length + digitsToNat cs := Nat.le_add_right _ _

theorem canonical_zero {l : List Char} (hd : ∀ c ∈ l, c.isDigit = true) (hne : l ≠ [])
    (hz : l = ['0'] ∨ l.head? ≠ some '0') (hv : digitsToNat l = 0) : l = ['0'] := by
  rcases hz with h | h
  · exact h
  · cases l with
    | nil => exact absurd rfl hne
    | cons c cs =>
      have hcne : c ≠ '0' := by simpa using h
      have hlow := digitsToNat_lower cs (hd c (List.mem_cons_self c cs)) hcne
      rw [hv] at hlow
      have hpos : 0 < 10 ^ cs.length := Nat.pos_pow_of_pos _ (by norm_num)
      omega

theorem isArrayIndexKey_inj {s1 s2 : String} {n : ℕ}
    (h1 : isArrayIndexKey s1 = some n) (h2 : isArrayIndexKey s2 = some n) : s1 = s2 := by
  obtain ⟨hne1, hd1, hz1, hv1⟩ := isArrayIndexKey_spec h1
  obtain ⟨hne2, hd2, hz2, hv2⟩ := isArrayIndexKey_spec h2
  have hv : digitsToNat s1.data = digitsToNat s2.data := by rw [hv1, hv2]
  have hdata : s1.data = s2.data := by
    by_cases hzero : digitsToNat s1.data = 0
    · have e1 := canonical_zero hd1 hne1 hz1 hzero
      have e2 := canonical_zero hd2 hne2 hz2 (by rw [← hv]; exact hzero)
      rw [e1, e2]
    · have hcanon : ∀ (l : List Char), (∀ c ∈ l, c.isDigit = true) → l ≠ [] →
          (l = ['0'] ∨ l.head? ≠ some '0') → digitsToNat l ≠ 0 →
          10 ^ (l.length - 1) ≤ digitsToNat l := by
        intro l hd hne hz hnz
        cases l with
        | nil => exact absurd rfl hne
        | cons c cs =>
          have hcne : c ≠ '0' := by
            rcases hz with hl | hl
            · exfalso
              rw [hl] at hnz
              exact hnz (by decide)
            · simpa using hl
          simpa using digitsToNat_lower cs (hd c (List.mem_cons_self c cs)) hcne
      have hb1 := hcanon s1.data hd1 hne1 hz1 hzero
      have hb2 := hcanon s2.data hd2 hne2 hz2 (by rw [← hv]; exact hzero)
      have hu1 := digitsToNat_lt s1.data hd1
      have hu2 := digitsToNat_lt s2.data hd2
      have hlen : s1.data.length = s2.data.length := by
        by_contra hll
        rcases Nat.lt_or_ge s1.data.length s2.data.length with hlt | hge
        · have : (10 : ℕ) ^ s1.data.length ≤ 10 ^ (s2.data.length - 1) :=
            Nat.pow_le_pow_right (by norm_num) (by omega)
          omega
        · have hgt : s2.data.length < s1.data.length := by omega
          have : (10 : ℕ) ^ s2.data.length ≤ 10 ^ (s1.data.length - 1) :=
            Nat.pow_le_pow_right (by norm_num) (by omega)
          omega
      exact digitsToNat_inj_of_length hlen hd1 hd2 hv
  cases s1
  cases s2
  rw [show (String.mk _).data = _ from rfl] at hdata
  exact congrArg String.mk hdata

theorem insertIdxEntry_keys (n : ℕ) (e : String × HostAcc) (obj : HostObj) :
    (insertIdxEntry n e obj).map (fun f => f.1)
      = insertIdxKey n e.1 (obj.map (fun f => f.1)) := by
  induction obj with
  | nil => rfl
  | cons f fs ih =>
    cases hidx : isArrayIndexKey f.1 with
    | some m =>
      by_cases hm : m < n
      · simp only [insertIdxEntry, hidx, if_pos hm, List.map_cons, insertIdxKey, ih]
      · simp only [insertIdxEntry, hidx, if_neg hm, List.map_cons, insertIdxKey]
    | none =>
      simp only [insertIdxEntry, hidx, List.map_cons, insertIdxKey]

theorem insertIdxKey_into {k : String} {n : ℕ} (hk : isArrayIndexKey k = some n) :
    ∀ (ik sk : List String), (∀ x ∈ ik, (isArrayIndexKey x).isSome)
      → (∀ x ∈ sk, isArrayIndexKey x = none)
      → ik.Pairwise (fun a b => keyIdxVal a < keyIdxVal b)
      → (∀ x ∈ ik, x ≠ k)
      → ∃ ik2, insertIdxKey n k (ik ++ sk) = ik2 ++ sk
          ∧ (∀ x ∈ ik2, (isArrayIndexKey x).isSome)
          ∧ ik2.Pairwise (fun a b => keyIdxVal a < keyIdxVal b)
          ∧ (∀ x ∈ ik2, x = k ∨ x ∈ ik) := by
  intro ik
  induction ik with
  | nil =>
    intro sk _ hsk _ _
    refine ⟨[k], ?_, ?_, ?_, ?_⟩
    · cases sk with
      | nil => rfl
      | cons f fs =>
        simp only [List.nil_append, insertIdxKey, hsk f (List.mem_cons_self f fs)]
        rfl
    · intro x hx
      rw [List.mem_singleton] at hx
      rw [hx, hk]
      rfl
    · exact List.pairwise_singleton _ _
    · intro x hx
      rw [List.mem_singleton] at hx
      exact Or.inl hx
  | cons a ik' ih =>
    intro sk hik hsk hpw hfresh
    have ha : (isArrayIndexKey a).isSome := hik a (List.mem_cons_self a ik')
    obtain ⟨m, hm⟩ := Option.isSome_iff_exists.mp ha
    rw [List.pairwise_cons] at hpw
    by_cases hmn : m < n
    · obtain ⟨ik2', hres, hsome, hpw2, hmem⟩ :=
        ih sk (fun x hx => hik x (List.mem_cons_of_mem a hx)) hsk hpw.2
          (fun x hx => hfresh x (List.mem_cons_of_mem a hx))
      refine ⟨a :: ik2', ?_, ?_, ?_, ?_⟩
      · simp only [List.cons_append, insertIdxKey, hm, if_pos hmn]
        show a :: insertIdxKey n k (ik' ++ sk) = (a :: ik2') ++ sk
        rw [hres]
        rfl
      · intro x hx
        rcases List.mem_cons.mp hx with rfl | hx2
        · exact ha
        · exact hsome x hx2
      · rw [List.pairwise_cons]
        refine ⟨?_, hpw2⟩
        intro x hx
        rcases hmem x hx with rfl | hx2
        · show keyIdxVal a < keyIdxVal x
          rw [keyIdxVal, keyIdxVal, hm, hk]
          simpa using hmn
        · exact hpw.1 x hx2
      · intro x hx
        rcases List.mem_cons.mp hx with rfl | hx2
        · exact Or.inr (List.mem_cons_self x ik')
        · rcases hmem x hx2 with h | h
          · exact Or.inl h
          · exact Or.inr (List.mem_cons_of_mem a h)
    · have hne : m ≠ n := by
        intro he
        exact hfresh a (List.mem_cons_self a ik') (isArrayIndexKey_inj hm (he ▸ hk))
      have hnm : n < m := by omega
      refine ⟨k :: a :: ik', ?_, ?_, ?_, ?_⟩
      · simp only [List.cons_append, insertIdxKey, hm, if_neg hmn]
        rfl
      · intro x hx
        rcases List.mem_cons.mp hx with rfl | hx2
        · rw [hk]; rfl
        · exact hik x hx2
      · rw [List.pairwise_cons]
        constructor
        · intro x hx
          show keyIdxVal k < keyIdxVal x
          rcases List.mem_cons.mp hx with rfl | hx2
          · rw [keyIdxVal, keyIdxVal, hk, hm]
            simpa using hnm
          · obtain ⟨m2, hm2⟩ := Option.isSome_iff_exists.mp
              (hik x (List.mem_cons_of_mem a hx2))
            have := hpw.1 x hx2
            rw [keyIdxVal, keyIdxVal, hk, hm2]
            rw [keyIdxVal, keyIdxVal, hm, hm2] at this
            simp only [Option.getD_some] at this ⊢
            omega
        · exact List.Pairwise.cons hpw.1 hpw.2
      · intro x hx
        rcases List.mem_cons.mp hx with rfl | hx2
        · exact Or.inl rfl
        · exact Or.inr hx2

theorem keysOrdered_objInsert {obj : HostObj} (k : String) (u : Option HostAcc → HostAcc)
    (ho : KeysOrdered (obj.map (fun e => e.1))) :
    KeysOrdered ((objInsert obj k u).map (fun e => e.1)) := by
  cases hf : obj.find? (fun e => e.1 == k) with
  | some e =>
    rw [objInsert, hf]
    show KeysOrdered ((objUpdate obj k (u (some e.2))).map (fun e => e.1))
    rw [objUpdate_keys]
    exact ho
  | none =>
    have hfresh : k ∉ obj.map (fun e => e.1) := find?_eq_none_iff_keys.mp hf
    rw [objInsert, hf]
    cases hidx : isArrayIndexKey k with
    | some n =>
      show KeysOrdered ((insertIdxEntry n (k, u none) obj).map (fun e => e.1))
      rw [insertIdxEntry_keys]
      obtain ⟨ik, sk, hsplit, hik, hsk, hpw⟩ := ho
      rw [hsplit]
      have hfr : ∀ x ∈ ik, x ≠ k := by
        intro x hx he
        exact hfresh (hsplit ▸ List.mem_append_left sk (he ▸ hx))
      obtain ⟨ik2, hres, hsome2, hpw2, _⟩ := insertIdxKey_into hidx ik sk hik hsk hpw hfr
      exact ⟨ik2, sk, hres, hsome2, hsk, hpw2⟩
    | none =>
      show KeysOrdered ((obj ++ [(k, u none)]).map (fun e => e.1))
      rw [List.map_append]
      obtain ⟨ik, sk, hsplit, hik, hsk, hpw⟩ := ho
      rw [hsplit, List.append_assoc]
      refine ⟨ik, sk ++ [k], rfl, hik, ?_, hpw⟩
      intro x hx
      rcases List.mem_append.mp hx with h | h
      · exact hsk x h
      · rw [List.mem_singleton] at h
        rw [h]
        exact hidx

theorem hostGroups_keysOrdered (data : List Listing) :
    KeysOrdered ((hostGroups data).map (fun e => e.1)) := by
  induction data using List.reverseRecOn with
  | nil => exact ⟨[], [], rfl, by simp, by simp, List.Pairwise.nil⟩
  | append_singleton data l ih =>
    rw [hostGroups_snoc]
    exact keysOrdered_objInsert _ _ ih

theorem hostGroups_idx_pairwise (data : List Listing) :
    (hostGroups data).Pairwise (fun a b => ∀ m2 n2, isArrayIndexKey a.1 = some m2 →
      isArrayIndexKey b.1 = some n2 → m2 < n2) := by
  obtain ⟨ik, sk, hsplit, hik, hsk, hpw⟩ := hostGroups_keysOrdered data
  have hkeys : ((hostGroups data).map (fun e => e.1)).Pairwise
      (fun a b => ∀ m2 n2, isArrayIndexKey a = some m2 →
        isArrayIndexKey b = some n2 → m2 < n2) := by
    rw [hsplit, List.pairwise_append]
    refine ⟨?_, ?_, ?_⟩
    · refine hpw.imp ?_
      intro a b h m2 n2 hm hn
      rw [keyIdxVal, hm] at h
      rw [keyIdxVal, hn] at h
      simpa using h
    · refine List.pairwise_of_forall_mem_list ?_
      intro a ha b hb m2 n2 hm hn
      rw [hsk a ha] at hm
      exact absurd hm (by simp)
    · intro a ha b hb m2 n2 hm hn
      rw [hsk b hb] at hn
      exact absurd hn (by simp)
  exact (List.pairwise_map).mp hkeys

/-- C1: for every dataset and criteria, the filter keeps a listing iff each
of the three dimensions is either unconstrained (max bound `0`) or the
listing's extracted value lies inclusively between the min and max bound;
with all three max bounds `0` the filter is the identity. -/
theorem filterListings_spec (data : List Listing) (c : Filters) :
    filterListings data c = data.filter (fun it => decide (
        (c.price_max = 0 ∨ (c.price_min ≤ getNumber it "price"
          ∧ getNumber it "price" ≤ c.price_max))
      ∧ (c.room_max = 0 ∨ (c.room_min ≤ getNumber it "bedrooms"
          ∧ getNumber it "bedrooms" ≤ c.room_max))
      ∧ (c.score_max = 0 ∨ (c.score_min ≤ getNumber it "review_scores_rating"
          ∧ getNumber it "review_scores_rating" ≤ c.score_max))))
    ∧ (c.price_max = 0 → c.room_max = 0 → c.score_max = 0 →
        filterListings data c = data) := by
  constructor
  · apply List.filter_congr
    intro it _
    simp only [passesPure, Bool.decide_and, Bool.decide_or]
    rw [Bool.and_assoc]
  · intro h1 h2 h3
    rw [filterListings, List.filter_eq_self]
    intro it _
    simp [passesPure, h1, h2, h3]

/-- C1 witness: at the scenario dataset and the all-zero criteria the
filter returns the dataset unchanged. -/
theorem filterListings_spec_witness : filterListings exData Filters.zero = exData :=
  (filterListings_spec exData Filters.zero).2 rfl rfl rfl

/-- C2: the numeric extractor is total (it has type `ℚ` and so always
yields a finite number): on textual values it strips `$` and `,` before
parsing (with `0` on a failed parse), on an absent field it yields `0`, and
it round-trips currency text as the claim's three examples state. -/
theorem getNumber_spec :
    (∀ (it : Listing) (prop s : String), lookupField it prop = some (Value.str s) →
      getNumber it prop
        = (jsParseFloat (if stripCurrency s = "" then "0" else stripCurrency s)).getD 0)
    ∧ (∀ (it : Listing) (prop : String), lookupField it prop = none →
        getNumber it prop = 0)
    ∧ getNumber [("price", Value.str "$1,234.50")] "price" = 1234.5
    ∧ getNumber [("price", Value.str "$100")] "price" = 100
    ∧ getNumber ([] : Listing) "price" = 0 := by
  refine ⟨?_, ?_, ?_, ?_, rfl⟩
  · intro it prop s h
    simp only [getNumber, h]
  · intro it prop h
    simp only [getNumber, h]
  · simp +decide [getNumber, lookupField, stripCurrency, jsParseFloat, digitsToNat,
      List.dropWhile, List.takeWhile, List.find?]
    norm_num
  · simp +decide [getNumber, lookupField, stripCurrency, jsParseFloat, digitsToNat,
      List.dropWhile, List.takeWhile, List.find?]

/-- C2 witness: the textual-strip clause and the absent-field clause of
`getNumber_spec`, discharged at concrete records. -/
theorem getNumber_spec_witness :
    getNumber [("price", Value.str "$7")] "price"
      = (jsParseFloat (if stripCurrency "$7" = "" then "0" else stripCurrency "$7")).getD 0
    ∧ getNumber [("x", Value.num 3)] "price" = 0 :=
  ⟨getNumber_spec.1 _ "price" "$7" rfl, getNumber_spec.2.1 _ "price" rfl⟩

theorem foldl_add_map (f : Listing → ℚ) (data : List Listing) (a : ℚ) :
    data.foldl (fun s it => s + f it) a = a + (data.map f).sum := by
  induction data generalizing a with
  | nil => simp
  | cons x xs ih =>
    show xs.foldl _ (a + f x) = _
    rw [ih, List.map_cons, List.sum_cons, add_assoc]

/-- C3: `calculateStats` returns the listing count, the sum of extracted
prices divided by the count (undefined on an empty dataset), the sum of
extracted prices divided by the sum of extracted bedrooms (undefined when
the bedroom total is zero, with no room default at the aggregate level),
and the number of listings whose `host_id` is a number typed as such and
strictly positive. -/
theorem calculateStats_spec (data : List Listing) :
    calculateStats data = {
      count := data.length
      averagePrice := if data.length = 0 then none
        else some ((data.map (fun it => getNumber it "price")).sum / (data.length : ℚ))
      avgPricePerRoom := if (data.map (fun it => getNumber it "bedrooms")).sum = 0 then none
        else some ((data.map (fun it => getNumber it "price")).sum
          / (data.map (fun it => getNumber it "bedrooms")).sum)
      validListings := (data.filter (fun it =>
        match lookupField it "host_id" with
        | some (Value.num q) => decide (0 < q)
        | _ => false)).length } := by
  have hp : data.foldl (fun s it => s + getNumber it "price") 0
      = (data.map (fun it => getNumber it "price")).sum := by
    rw [foldl_add_map, zero_add]
  have hb : data.foldl (fun s it => s + getNumber it "bedrooms") 0
      = (data.map (fun it => getNumber it "bedrooms")).sum := by
    rw [foldl_add_map, zero_add]
  simp only [calculateStats, jsDiv, hp, hb, isValidHost]
  congr 1
  by_cases h : data.length = 0
  · simp [h]
  · simp [h, Nat.cast_eq_zero]

/-- C4 counterexample: the claim's `price / max(bedrooms, 1)` formula fails
on a listing with a negative bedroom count — the code's `rooms || 1`
replaces only a zero count by one, so `price=100, bedrooms=-1` is annotated
with `-100`, while the claimed formula gives `100`. -/
theorem price_per_room_cex :
    lookupField (annotatePricePerRoom [("price", Value.num 100), ("bedrooms", Value.num (-1))])
        "price_per_room" = some (Value.num (-100))
    ∧ toFixed2 ((100 : ℚ) / max (-1 : ℚ) 1) = 100
    ∧ (Value.num (-100) ≠ Value.num 100) := by
  have hf1 : (⌊(100 : ℚ) * 100 + 1 / 2⌋ : ℤ) = 10000 :=
    Int.floor_eq_iff.mpr (by norm_num)
  have ht1 : toFixed2 (-100 : ℚ) = -100 := by
    rw [toFixed2, if_neg (by norm_num)]
    norm_num [hf1]
  have ht2 : toFixed2 (100 : ℚ) = 100 := by
    rw [toFixed2, if_pos (by norm_num)]
    norm_num [hf1]
  refine ⟨?_, ?_, by simp only [ne_eq, Value.num.injEq]; norm_num⟩
  · have hr : parseIntField [("price", Value.num 100), ("bedrooms", Value.num (-1))]
        "bedrooms" = -1 := by
      have : ratTrunc (-1 : ℚ) = -1 := by
        rw [ratTrunc, if_neg (by norm_num)]
        norm_num
      simp +decide [parseIntField, lookupField, this]
    have hp : getNumber [("price", Value.num 100), ("bedrooms", Value.num (-1))]
        "price" = 100 := by
      simp +decide [getNumber, lookupField]
    rw [annotatePricePerRoom, hr, hp, if_neg (by norm_num)]
    rw [show (100 : ℚ) / (-1 : ℚ) = -100 by norm_num, ht1]
    rfl
  · rw [show max (-1 : ℚ) 1 = 1 by norm_num, div_one, ht2]

/-- C4 amended: the stats stage annotates every listing with
`price_per_room = price / (bedrooms when nonzero, else 1)` rounded half
away from zero at the hundredths digit; this agrees with the claim's
`price / max(bedrooms, 1)` whenever the extracted bedroom count is
nonnegative (bedroom counts in real data are), and in particular a listing
with `bedrooms = 0, price = 100` is annotated `100.00` with no
division-by-zero failure. -/
theorem price_per_room_amended (data : List Listing) :
    computeStatsAnnotate data = data.map (fun it =>
      setField it "price_per_room" (Value.num (toFixed2 (getNumber it "price"
        / (if parseIntField it "bedrooms" = 0 then 1 else parseIntField it "bedrooms")))))
    ∧ (∀ it : Listing, 0 ≤ parseIntField it "bedrooms" →
        toFixed2 (getNumber it "price"
            / (if parseIntField it "bedrooms" = 0 then 1 else parseIntField it "bedrooms"))
          = toFixed2 (getNumber it "price" / max (parseIntField it "bedrooms") 1))
    ∧ lookupField (annotatePricePerRoom [("price", Value.num 100), ("bedrooms", Value.num 0)])
        "price_per_room" = some (Value.num 100) := by
  have hint : ∀ (it : Listing) (p : String), ∃ z : ℤ, parseIntField it p = (z : ℚ) := by
    intro it p
    rw [parseIntField]
    cases lookupField it p with
    | none => exact ⟨0, rfl⟩
    | some v =>
      cases v with
      | num q => exact ⟨ratTrunc q, rfl⟩
      | str s => exact ⟨(jsParseInt s).getD 0, rfl⟩
      | bool b => exact ⟨0, rfl⟩
      | null => exact ⟨0, rfl⟩
  refine ⟨rfl, ?_, ?_⟩
  · intro it hnn
    by_cases hz : parseIntField it "bedrooms" = 0
    · rw [if_pos hz, hz]
      rw [show max (0 : ℚ) 1 = 1 by norm_num]
    · rw [if_neg hz]
      obtain ⟨z, hzq⟩ := hint it "bedrooms"
      have h1 : (1 : ℚ) ≤ parseIntField it "bedrooms" := by
        rw [hzq] at hnn hz ⊢
        have hz1 : 1 ≤ z := by
          have : 0 ≤ z := by exact_mod_cast hnn
          have : z ≠ 0 := fun he => hz (by rw [he]; rfl)
          omega
        exact_mod_cast hz1
      rw [max_eq_left h1]
  · have h0 : ratTrunc (0 : ℚ) = 0 := by
      rw [ratTrunc, if_pos (by norm_num)]
      norm_num
    have hr : parseIntField [("price", Value.num 100), ("bedrooms", Value.num 0)]
        "bedrooms" = 0 := by
      simp +decide [parseIntField, lookupField, h0]
    have hp : getNumber [("price", Value.num 100), ("bedrooms", Value.num 0)]
        "price" = 100 := by
      simp +decide [getNumber, lookupField]
    have hf1 : (⌊(100 : ℚ) * 100 + 1 / 2⌋ : ℤ) = 10000 :=
      Int.floor_eq_iff.mpr (by norm_num)
    have ht2 : toFixed2 (100 : ℚ) = 100 := by
      rw [toFixed2, if_pos (by norm_num)]
      norm_num [hf1]
    rw [annotatePricePerRoom, hr, hp, if_pos rfl, div_one, ht2]
    rfl

/-- C4 amended witness: the nonnegative-bedrooms clause discharged at a
listing with no bedroom field (extracted count `0`). -/
theorem price_per_room_amended_witness :
    toFixed2 (getNumber ([] : Listing) "price"
        / (if parseIntField ([] : Listing) "bedrooms" = 0 then 1
           else parseIntField ([] : Listing) "bedrooms"))
      = toFixed2 (getNumber ([] : Listing) "price"
          / max (parseIntField ([] : Listing) "bedrooms") 1) :=
  (price_per_room_amended []).2.1 [] (le_refl 0)

/-- C9: `order` is idempotent — sorting an already-sorted dataset with the
same stable comparator returns it unchanged. -/
theorem order_idempotent (data : List Listing) (property : String) :
    handlerOrder (handlerOrder data property) property = handlerOrder data property :=
  sortByKey_of_sorted _ (sortByKey_sorted _ _)

/-- C5: `rankHosts(limit)` returns exactly `min limit (distinct host count)`
entries (never padding, never failing), sorted by descending count; the
counts it reports sum to at most the dataset size, with equality whenever
`limit` covers every distinct host. -/
theorem rankHosts_spec (data : List Listing) (limit : ℕ) :
    (handlerRankHosts data limit).length = min limit (distinctHostCount data)
    ∧ (handlerRankHosts data limit).Pairwise (fun a b => b.2.count ≤ a.2.count)
    ∧ sumCounts (handlerRankHosts data limit) ≤ data.length
    ∧ (distinctHostCount data ≤ limit →
        sumCounts (handlerRankHosts data limit) = data.length) := by
  have hlen : (rankAllHosts data).length = distinctHostCount data := by
    rw [rankAllHosts, (sortByKey_perm _ _).length_eq, hostGroups_length]
  have hsum : sumCounts (rankAllHosts data) = data.length := by
    rw [rankAllHosts, sumCounts_perm (sortByKey_perm _ _), sumCounts_hostGroups]
  have hsorted : (rankAllHosts data).Pairwise (fun a b => b.2.count ≤ a.2.count) := by
    rw [rankAllHosts]
    refine (sortByKey_sorted _ _).imp ?_
    intro a b h
    have := neg_le_neg_iff.mp h
    exact_mod_cast this
  refine ⟨?_, ?_, ?_, ?_⟩
  · rw [handlerRankHosts, List.length_take, hlen]
  · exact hsorted.sublist (List.take_sublist _ _)
  · have hsplit : rankAllHosts data
        = (rankAllHosts data).take limit ++ (rankAllHosts data).drop limit :=
      (List.take_append_drop _ _).symm
    have : sumCounts (rankAllHosts data)
        = sumCounts ((rankAllHosts data).take limit)
          + sumCounts ((rankAllHosts data).drop limit) := by
      rw [sumCounts, sumCounts, sumCounts]
      conv_lhs => rw [hsplit]
      rw [List.map_append, List.sum_append]
    rw [handlerRankHosts]
    omega
  · intro hle
    rw [handlerRankHosts, List.take_of_length_le (by omega), hsum]

/-- C5 witness: at the scenario dataset with the default limit the
returned counts cover the whole dataset. -/
theorem rankHosts_spec_witness :
    sumCounts (handlerRankHosts exData 10) = exData.length :=
  (rankHosts_spec exData 10).2.2.2 (by decide)

/-- C6 counterexample: the grouping keeps the LAST name seen for a host id
(`{name: listing.host_name, …}` overwrites on every step), not the first,
and equal-count groups come out in `Object.entries` order — array-index-like
ids ascending — not in order of each host's first appearance: ids 20 then 3
rank as 3 before 20. -/
theorem rankHosts_cex :
    handlerRankHosts
        [[("host_id", Value.num 1), ("host_name", Value.str "A")],
         [("host_id", Value.num 1), ("host_name", Value.str "B")]] 10
      = [("1", ⟨some (Value.str "B"), 2⟩)]
    ∧ (some (Value.str "B") ≠ some (Value.str "A"))
    ∧ (handlerRankHosts
        [[("host_id", Value.num 20), ("host_name", Value.str "X")],
         [("host_id", Value.num 3), ("host_name", Value.str "Y")]] 10).map (fun e => e.1)
      = ["3", "20"]
    ∧ (["3", "20"] : List String) ≠ ["20", "3"] := by
  refine ⟨by decide, by decide, by decide, by decide⟩

/-- C6 amended: `rankHosts` groups listings by exact (stringified) host-id
key; each group's count is the number of its listings and its `host_name`
is the one on the group's LAST listing in dataset order (last-seen wins);
the ranking is sorted by descending count, groups with equal counts appear
in the grouping object's key-enumeration order, and that order lists
array-index-like ids in ascending numeric order (before any non-index id),
not in first-appearance order. -/
theorem rankHosts_amended (data : List Listing) :
    (∀ k a, (k, a) ∈ hostGroups data →
        a.count = (data.filter (fun it => hostKey it == k)).length
        ∧ ∃ l, (data.filter (fun it => hostKey it == k)).getLast? = some l
            ∧ a.name = lookupField l "host_name")
    ∧ (rankAllHosts data).Pairwise (fun a b => b.2.count ≤ a.2.count)
    ∧ (∀ c : ℕ, (rankAllHosts data).filter (fun e => e.2.count == c)
        = (hostGroups data).filter (fun e => e.2.count == c))
    ∧ (hostGroups data).Pairwise (fun a b => ∀ m n, isArrayIndexKey a.1 = some m →
        isArrayIndexKey b.1 = some n → m < n) := by
  refine ⟨?_, ?_, ?_, hostGroups_idx_pairwise data⟩
  · intro k a h
    exact hostGroups_entry_spec h
  · refine (sortByKey_sorted _ _).imp ?_
    intro a b h
    have := neg_le_neg_iff.mp h
    exact_mod_cast this
  · intro c
    have hkey := sortByKey_filter_eq (fun e : String × HostAcc => -((e.2.count : ℤ)))
      (hostGroups data) (-(c : ℤ))
    have hptw : ∀ e : String × HostAcc,
        ((-((e.2.count : ℤ))) == (-(c : ℤ))) = (e.2.count == c) := by
      intro e
      by_cases h : e.2.count = c
      · simp [h]
      · have h2 : ¬(-((e.2.count : ℤ)) = -(c : ℤ)) := by
          simpa [neg_inj, Nat.cast_inj] using h
        simp [h, h2]
    calc (rankAllHosts data).filter (fun e => e.2.count == c)
        = (rankAllHosts data).filter (fun e => (-((e.2.count : ℤ))) == (-(c : ℤ))) :=
          (List.filter_congr (fun e _ => (hptw e).symm)).symm ▸ rfl
      _ = (hostGroups data).filter (fun e => (-((e.2.count : ℤ))) == (-(c : ℤ))) := hkey
      _ = (hostGroups data).filter (fun e => e.2.count == c) :=
          List.filter_congr (fun e _ => hptw e)

/-- C6 amended witness: the grouping clause discharged at a concrete
two-listing dataset with one host id: count 2 and the last-seen name. -/
theorem rankHosts_amended_witness :
    (⟨some (Value.str "B"), 2⟩ : HostAcc).count
      = (([[("host_id", Value.num 1), ("host_name", Value.str "A")],
           [("host_id", Value.num 1), ("host_name", Value.str "B")]] : List Listing).filter
          (fun it => hostKey it == "1")).length
    ∧ ∃ l, (([[("host_id", Value.num 1), ("host_name", Value.str "A")],
           [("host_id", Value.num 1), ("host_name", Value.str "B")]] : List Listing).filter
          (fun it => hostKey it == "1")).getLast? = some l
        ∧ (⟨some (Value.str "B"), 2⟩ : HostAcc).name = lookupField l "host_name" :=
  (rankHosts_amended _).1 "1" ⟨some (Value.str "B"), 2⟩ (by decide)

/-- C7: on the empty dataset the pure handler's stages are all safe —
stats are computed with undefined (`none`) averages and no failure, the
ranking is empty, the pure `order` returns the empty dataset — but the
mutating handler's `order` is NOT: it reads `filteredListings[0][property]`
for its log line, and on an empty array that member access throws a
`TypeError`, contradicting the specification's requirement that every
downstream stage accept an empty dataset. -/
theorem empty_dataset_stages :
    handlerOrderMut ([] : List Listing) "price"
      = Except.error "TypeError: cannot read properties of undefined"
    ∧ handlerOrder ([] : List Listing) "price" = []
    ∧ handlerRankHosts ([] : List Listing) 10 = []
    ∧ calculateStats ([] : List Listing)
      = { count := 0, averagePrice := none, avgPricePerRoom := none, validListings := 0 } := by
  refine ⟨rfl, rfl, rfl, ?_⟩
  rw [calculateStats]
  simp [jsDiv]

/-- C8 counterexample: the mutating handler's `order` sorts its stored
`filteredListings` array in place (`Array.prototype.sort`), so after the
call the handler's dataset no longer holds the listings in their previous
order: a two-listing dataset with prices 200, 100 is left as 100, 200 —
the original sequence is not preserved anywhere. -/
theorem order_mut_inplace_cex :
    handlerOrderMut [[("price", Value.num 200)], [("price", Value.num 100)]] "price"
      = Except.ok [[("price", Value.num 100)], [("price", Value.num 200)]]
    ∧ ([[("price", Value.num 100)], [("price", Value.num 200)]] : List Listing)
      ≠ [[("price", Value.num 200)], [("price", Value.num 100)]] := by
  constructor
  · rw [handlerOrderMut]
    show Except.ok (sortByKey _ _) = _
    rw [sortByKey]
    have h2 : getNumber [("price", Value.num 200)] "price" = 200 := by
      simp +decide [getNumber, lookupField]
    have h1 : getNumber [("price", Value.num 100)] "price" = 100 := by
      simp +decide [getNumber, lookupField]
    simp [List.insertionSort, List.orderedInsert, h1, h2]
    · norm_num
    · simp
  · decide

/-- C8 amended: the pure handler's `filter` and `order` produce new dataset
values — the filter result is a subsequence of the input (input order kept,
input untouched) and the pure `order` result is a permutation of its input,
while the mutating handler's `filter` writes only its `filteredListings`
state and leaves the raw `data` it read from unchanged; only the mutating
handler's `order` reorders its stored dataset in place. -/
theorem filter_order_new_dataset_amended (data : List Listing) (c : Filters)
    (property : String) (s : HandlerState) :
    List.Sublist (filterListings data c) data
    ∧ List.Perm (handlerOrder data property) data
    ∧ (handlerFilterMut s c).data = s.data := by
  refine ⟨List.filter_sublist data, sortByKey_perm _ _, rfl⟩

/-- C10 counterexample: the two filter implementations disagree — a listing
whose `bedrooms` field is the text `"2.5"` extracts to `2` under the
mutating handler's `parseInt` (kept when `room_max = 2`) but to `2.5` under
the pure handler's float extractor (dropped). -/
theorem filters_disagree_cex :
    filterMut [[("bedrooms", Value.str "2.5")]] ⟨0, 0, 0, 2, 0, 0⟩
      = [[("bedrooms", Value.str "2.5")]]
    ∧ filterListings [[("bedrooms", Value.str "2.5")]] ⟨0, 0, 0, 2, 0, 0⟩ = []
    ∧ ([[("bedrooms", Value.str "2.5")]] : List Listing) ≠ [] := by
  have hint : parseIntField [("bedrooms", Value.str "2.5")] "bedrooms" = 2 := by
    simp +decide [parseIntField, lookupField, jsParseInt, List.dropWhile, List.takeWhile,
      digitsToNat, isHexDigitChar]
  have hfl : getNumber [("bedrooms", Value.str "2.5")] "bedrooms" = 5 / 2 := by
    simp +decide [getNumber, lookupField, stripCurrency, jsParseFloat, List.dropWhile,
      List.takeWhile, digitsToNat]
    norm_num
  have habs : ∀ p, p = "price" ∨ p = "review_scores_rating" →
      getNumber [("bedrooms", Value.str "2.5")] p = 0 := by
    intro p hp
    rcases hp with rfl | rfl <;> simp +decide [getNumber, lookupField]
  have hscore : parseFloatField [("bedrooms", Value.str "2.5")] "review_scores_rating" = 0 := by
    simp +decide [parseFloatField, lookupField]
  refine ⟨?_, ?_, by simp⟩
  · show List.filter _ _ = _
    rw [List.filter_cons]
    have hpass : passesMut ⟨0, 0, 0, 2, 0, 0⟩ [("bedrooms", Value.str "2.5")] = true := by
      rw [passesMut]
      rw [hint, hscore, habs "price" (Or.inl rfl)]
      norm_num
    rw [hpass]
    rfl
  · show List.filter _ _ = _
    rw [List.filter_cons]
    have hpass : passesPure ⟨0, 0, 0, 2, 0, 0⟩ [("bedrooms", Value.str "2.5")] = false := by
      rw [passesPure]
      rw [hfl, habs "price" (Or.inl rfl), habs "review_scores_rating" (Or.inr rfl)]
      norm_num
    rw [hpass]
    rfl

/-- C10 amended: the two filter implementations select the same subset on
every dataset in which each listing's bedroom field extracts identically
under integer and floating-point parsing and its review score is unchanged
by currency stripping (both hold for the integer bedroom counts and plain
numeric scores of real data); in general they differ (see the
counterexample). -/
theorem filters_agree_amended (data : List Listing) (c : Filters)
    (h : ∀ it ∈ data, parseIntField it "bedrooms" = getNumber it "bedrooms"
        ∧ parseFloatField it "review_scores_rating"
          = getNumber it "review_scores_rating") :
    filterMut data c = filterListings data c := by
  apply List.filter_congr
  intro it hit
  rw [passesMut, passesPure, (h it hit).1, (h it hit).2]

/-- C10 amended witness: the agreement discharged on a singleton dataset
whose only listing has no fields at all (every extractor yields `0`). -/
theorem filters_agree_amended_witness :
    filterMut [([] : Listing)] Filters.zero = filterListings [([] : Listing)] Filters.zero :=
  filters_agree_amended _ _ (by
    intro it hit
    rw [List.mem_singleton] at hit
    subst hit
    exact ⟨rfl, rfl⟩)
